import Mathlib

/-!
A shallow embedding of `src/binary_tree.rs` (an ordered binary search tree)
together with proofs about its operations.

Modelling conventions:
* `Option<Box<Node<T>>>` becomes the inductive `NTree`; `NTree.leaf` is the
  absent child (`None`) and `NTree.node l a r` is a `Node` with item `a`.
* `BinaryTree<T>` becomes the structure `BinaryTree` with its `root` tree and
  its stored `len` field.
* Rust panics (`todo!()` in `Node::remove_self`, `unreachable!()` in
  `Node::remove_item`) are modelled with `Except Panic`; a `.error` value means
  the corresponding Rust code aborts through that panic.
* `Node::for_each` visits the left subtree, the item, then the right subtree;
  `inorder` is the list of items it visits, which is also what
  `BinaryTree::iter` yields (it collects `for_each` into a buffer).
-/

namespace BinTreeRs

instance {ε σ : Type} [DecidableEq ε] [DecidableEq σ] : DecidableEq (Except ε σ) := fun a b =>
  match a, b with
  | .ok x, .ok y => decidable_of_iff (x = y) (by simp)
  | .error e, .error f => decidable_of_iff (e = f) (by simp)
  | .ok _, .error _ => isFalse (by simp)
  | .error _, .ok _ => isFalse (by simp)

/-- The two panic sites of `binary_tree.rs`: the `todo!()` in
`Node::remove_self` (both children present) and the `unreachable!()` at the
top of `Node::remove_item` (current item equal to the target). -/
inductive Panic : Type where
  | todo : Panic
  | unreachable : Panic
deriving DecidableEq

/-- A subtree slot: `leaf` is Rust's `None`, `node l a r` is a `Node` with
`item = a`, `left = l`, `right = r`. -/
inductive NTree (α : Type) : Type where
  | leaf : NTree α
  | node : NTree α → α → NTree α → NTree α
deriving DecidableEq

variable {α : Type} [LinearOrder α]

namespace NTree

/-- The list of items visited by `Node::for_each` (left subtree, own item,
right subtree), i.e. the in-order traversal; `[]` for an absent subtree. -/
def inorder : NTree α → List α
  | .leaf => []
  | .node l a r => inorder l ++ a :: inorder r

/-- Rust `Node::height`: `1 + max` of the children's heights, an absent child
contributing `0` (`unwrap_or_default`). The `leaf` case is the `0` that
`BinaryTree::height` returns for an empty tree. -/
def height : NTree α → Nat
  | .leaf => 0
  | .node l _ r => 1 + max l.height r.height

/-- Rust `Node::insert`, together with the attach-at-empty-slot behaviour of its
callers: on an absent slot the new node is attached and `true` returned; on
`Equal` nothing changes and `false` is returned; otherwise the insert recurses
into the matching child and — exactly as in the source, where the recursive
call's result is discarded — the arm returns `true`. -/
def insert : NTree α → α → Bool × NTree α
  | .leaf, x => (true, .node .leaf x .leaf)
  | .node l a r, x =>
    match compare x a with
    | .eq => (false, .node l a r)
    | .lt => (true, .node (l.insert x).2 a r)
    | .gt => (true, .node l a (r.insert x).2)

/-- Rust `Node::remove_self`: the removed node's fields are `left`, `item`,
`right`; the result is the item together with the subtree to put in the
removed node's slot. With both children present the source executes `todo!()`. -/
def remove_self (item : α) : NTree α → NTree α → Except Panic (α × NTree α)
  | .leaf, .leaf => .ok (item, .leaf)
  | .node ll la lr, .leaf => .ok (item, .node ll la lr)
  | .leaf, .node rl ra rr => .ok (item, .node rl ra rr)
  | .node _ _ _, .node _ _ _ => .error .todo

/-- Rust `Node::remove_item`: compares the target against the own item
(`Equal` is the `unreachable!()` panic), then looks at the matching child: if
the child holds the target it is detached and `remove_self` splices its
subtree in; otherwise the removal recurses (`as_mut().and_then(..)`, which on
an absent child yields `None` and leaves the tree unchanged). The `leaf` case
is that `and_then` on `None`. -/
def remove_item : NTree α → α → Except Panic (Option α × NTree α)
  | .leaf, _ => .ok (none, .leaf)
  | .node l a r, x =>
    match compare x a with
    | .eq => .error .unreachable
    | .lt =>
      match l with
      | .node ll la lr =>
        if la = x then
          match remove_self la ll lr with
          | .ok (i, sub) => .ok (some i, .node sub a r)
          | .error p => .error p
        else
          match remove_item (.node ll la lr) x with
          | .ok (res, l2) => .ok (res, .node l2 a r)
          | .error p => .error p
      | .leaf => .ok (none, .node .leaf a r)
    | .gt =>
      match r with
      | .node rl ra rr =>
        if ra = x then
          match remove_self ra rl rr with
          | .ok (i, sub) => .ok (some i, .node l a sub)
          | .error p => .error p
        else
          match remove_item (.node rl ra rr) x with
          | .ok (res, r2) => .ok (res, .node l a r2)
          | .error p => .error p
      | .leaf => .ok (none, .node l a .leaf)

/-- Rust `Node::min` (walk `left` until absent), lifted over the optional root the
way `BinaryTree::min` does: `none` on an empty tree. -/
def min : NTree α → Option α
  | .leaf => none
  | .node .leaf a _ => some a
  | .node (.node ll la lr) _ _ => min (.node ll la lr)

/-- Rust `Node::max` (walk `right` until absent), lifted over the optional root the
way `BinaryTree::max` does: `none` on an empty tree. -/
def max : NTree α → Option α
  | .leaf => none
  | .node _ a .leaf => some a
  | .node _ _ (.node rl ra rr) => max (.node rl ra rr)

end NTree

/-- Rust `BinaryTree<T>`: an optional root node and the stored `len` field. -/
structure BinaryTree (α : Type) where
  root : NTree α
  len : Nat
deriving DecidableEq

namespace BinaryTree

/-- Rust `BinaryTree::new` / `Default::default`: no root, `len = 0`. -/
def new : BinaryTree α := ⟨.leaf, 0⟩

/-- The `len()` method: it ignores the `len` field and counts the items
visited by `for_each`. -/
def len_fn (t : BinaryTree α) : Nat := t.root.inorder.length

/-- Rust `BinaryTree::iter`: collects the `for_each` traversal into a buffer and
iterates it, i.e. the in-order item sequence. -/
def iter (t : BinaryTree α) : List α := t.root.inorder

/-- Rust `BinaryTree::insert`: delegates to `Node::insert` (attaching a root when
absent), then runs `if !inserted { self.len += 1; }` — the increment happens
on the `!inserted` branch, exactly as in the source. -/
def insert (t : BinaryTree α) (x : α) : Bool × BinaryTree α :=
  let (inserted, root2) := t.root.insert x
  (inserted, ⟨root2, if !inserted then t.len + 1 else t.len⟩)

/-- Rust `BinaryTree::remove_item`: if the root holds the target it is detached
and `remove_self` splices its subtree in; otherwise
`root.as_mut().and_then(|r| r.remove_item(item))` (so `none` and no change on
an empty tree). The `len` field is never touched. -/
def remove_item (t : BinaryTree α) (x : α) : Except Panic (Option α × BinaryTree α) :=
  match t.root with
  | .node l a r =>
    if a = x then
      match NTree.remove_self a l r with
      | .ok (i, sub) => .ok (some i, ⟨sub, t.len⟩)
      | .error p => .error p
    else
      match NTree.remove_item (.node l a r) x with
      | .ok (res, root2) => .ok (res, ⟨root2, t.len⟩)
      | .error p => .error p
  | .leaf => .ok (none, t)

/-- Rust `BinaryTree::height`: the root's height, `0` when the root is absent. -/
def height (t : BinaryTree α) : Nat := t.root.height

/-- Rust `BinaryTree::min`. -/
def min (t : BinaryTree α) : Option α := t.root.min

/-- Rust `BinaryTree::max`. -/
def max (t : BinaryTree α) : Option α := t.root.max

/-- Rust `PartialEq for BinaryTree`: unequal `len()`s compare unequal, otherwise
the zipped in-order iterations are compared element-wise. -/
def eq (a b : BinaryTree α) : Bool :=
  if a.len_fn ≠ b.len_fn then false
  else (a.iter.zip b.iter).all fun p => decide (p.1 = p.2)

/-- Rust `FromIterator for BinaryTree` (also the `From` impls for arrays, slices
and vectors): start from the empty tree and insert every element in order. -/
def from_iter (l : List α) : BinaryTree α :=
  l.foldl (fun t x => (t.insert x).2) new

end BinaryTree

namespace NTree

/-- The BST invariant of the source's documentation: below every node, the
left subtree holds only strictly smaller items and the right subtree only
strictly greater ones. -/
inductive BST : NTree α → Prop
  | leaf : BST .leaf
  | node {l r : NTree α} {a : α} :
      BST l → BST r →
      (∀ y ∈ l.inorder, y < a) → (∀ y ∈ r.inorder, a < y) →
      BST (.node l a r)

theorem bst_sorted {t : NTree α} (h : BST t) : t.inorder.Sorted (· < ·) := by
  induction h with
  | leaf => simp [inorder]
  | node hl hr bl br ihl ihr =>
    simp only [inorder, List.Sorted, List.pairwise_append, List.pairwise_cons]
    refine ⟨ihl, ⟨fun b hb => br b hb, ihr⟩, ?_⟩
    intro y hy z hz
    rcases List.mem_cons.1 hz with rfl | hz
    · exact bl y hy
    · exact lt_trans (bl y hy) (br z hz)

theorem sorted_bst : ∀ {t : NTree α}, t.inorder.Sorted (· < ·) → BST t := by
  intro t
  induction t with
  | leaf => intro _; exact BST.leaf
  | node l a r ihl ihr =>
    intro h
    simp only [inorder, List.Sorted, List.pairwise_append, List.pairwise_cons] at h
    obtain ⟨hl, ⟨hr1, hr2⟩, hcross⟩ := h
    exact BST.node (ihl hl) (ihr hr2)
      (fun y hy => hcross y hy a (List.mem_cons_self a _)) hr1

theorem mem_insert {t : NTree α} {x y : α} (h : y ∈ ((t.insert x).2).inorder) :
    y ∈ t.inorder ∨ y = x := by
  induction t with
  | leaf =>
    simp only [insert, inorder, List.nil_append, List.mem_singleton] at h
    exact Or.inr h
  | node l a r ihl ihr =>
    rw [insert] at h
    cases hc : compare x a with
    | eq =>
      rw [hc] at h
      exact Or.inl h
    | lt =>
      rw [hc] at h
      simp only [inorder, List.mem_append, List.mem_cons] at h ⊢
      rcases h with h | h
      · rcases ihl h with h2 | h2
        · tauto
        · tauto
      · tauto
    | gt =>
      rw [hc] at h
      simp only [inorder, List.mem_append, List.mem_cons] at h ⊢
      rcases h with h | h | h
      · tauto
      · tauto
      · rcases ihr h with h2 | h2
        · tauto
        · tauto

theorem insert_bst {t : NTree α} (h : BST t) (x : α) : BST ((t.insert x).2) := by
  induction h with
  | leaf =>
    rw [insert]
    exact BST.node BST.leaf BST.leaf (by simp [inorder]) (by simp [inorder])
  | @node l r a hl hr bl br ihl ihr =>
    rw [insert]
    cases hc : compare x a with
    | eq => exact BST.node hl hr bl br
    | lt =>
      have hxa : x < a := compare_lt_iff_lt.1 hc
      refine BST.node ihl hr ?_ br
      intro y hy
      rcases mem_insert hy with h2 | h2
      · exact bl y h2
      · exact h2 ▸ hxa
    | gt =>
      have hax : a < x := compare_gt_iff_gt.1 hc
      refine BST.node hl ihr bl ?_
      intro y hy
      rcases mem_insert hy with h2 | h2
      · exact br y h2
      · exact h2 ▸ hax

theorem insert_perm {t : NTree α} {x : α} (hx : x ∉ t.inorder) :
    ((t.insert x).2).inorder.Perm (x :: t.inorder) := by
  induction t with
  | leaf => simp [insert, inorder]
  | node l a r ihl ihr =>
    rw [insert]
    cases hc : compare x a with
    | eq =>
      exact absurd (by simp [inorder, compare_eq_iff_eq.1 hc]) hx
    | lt =>
      have hxl : x ∉ l.inorder := fun hm => hx (by simp [inorder, hm])
      simp only [inorder]
      have h1 := (ihl hxl).append_right (a :: r.inorder)
      simpa using h1
    | gt =>
      have hxr : x ∉ r.inorder := fun hm => hx (by simp [inorder, hm])
      simp only [inorder]
      have h2 : (a :: ((r.insert x).2).inorder).Perm (a :: x :: r.inorder) :=
        (ihr hxr).cons a
      have h3 : (a :: x :: r.inorder).Perm (x :: a :: r.inorder) :=
        List.Perm.swap x a r.inorder
      have h5 := List.Perm.append_left l.inorder (h2.trans h3)
      exact h5.trans List.perm_middle

theorem inorder_node (l : NTree α) (a : α) (r : NTree α) :
    (NTree.node l a r).inorder = l.inorder ++ a :: r.inorder := rfl

theorem remove_item_node_eq (l : NTree α) (a : α) (r : NTree α) (x : α) :
    (NTree.node l a r).remove_item x =
      (match compare x a with
      | .eq => .error .unreachable
      | .lt =>
        match l with
        | .node ll la lr =>
          if la = x then
            match remove_self la ll lr with
            | .ok (i, sub) => .ok (some i, .node sub a r)
            | .error p => .error p
          else
            match (NTree.node ll la lr).remove_item x with
            | .ok (res, l2) => .ok (res, .node l2 a r)
            | .error p => .error p
        | .leaf => .ok (none, .node .leaf a r)
      | .gt =>
        match r with
        | .node rl ra rr =>
          if ra = x then
            match remove_self ra rl rr with
            | .ok (i, sub) => .ok (some i, .node l a sub)
            | .error p => .error p
          else
            match (NTree.node rl ra rr).remove_item x with
            | .ok (res, r2) => .ok (res, .node l a r2)
            | .error p => .error p
        | .leaf => .ok (none, .node l a .leaf) : Except Panic (Option α × NTree α)) := by
  cases l <;> cases r <;> rw [remove_item]

theorem remove_self_decomp {a i : α} {l r sub : NTree α}
    (h : remove_self a l r = .ok (i, sub)) :
    i = a ∧ ∃ l₁ l₂, (NTree.node l a r).inorder = l₁ ++ a :: l₂ ∧ sub.inorder = l₁ ++ l₂ := by
  cases l with
  | leaf =>
    cases r with
    | leaf =>
      simp only [remove_self, Except.ok.injEq, Prod.mk.injEq] at h
      obtain ⟨rfl, rfl⟩ := h
      exact ⟨rfl, [], [], by simp [inorder], by simp [inorder]⟩
    | node rl ra rr =>
      simp only [remove_self, Except.ok.injEq, Prod.mk.injEq] at h
      obtain ⟨rfl, rfl⟩ := h
      exact ⟨rfl, [], (NTree.node rl ra rr).inorder, by simp [inorder_node, inorder], rfl⟩
  | node ll la lr =>
    cases r with
    | leaf =>
      simp only [remove_self, Except.ok.injEq, Prod.mk.injEq] at h
      obtain ⟨rfl, rfl⟩ := h
      exact ⟨rfl, (NTree.node ll la lr).inorder, [], by simp [inorder_node, inorder], by simp⟩
    | node rl ra rr => simp [remove_self] at h

theorem remove_self_error {a : α} {l r : NTree α} {p : Panic}
    (h : remove_self a l r = .error p) : p = .todo := by
  cases l with
  | leaf =>
    cases r with
    | leaf => simp [remove_self] at h
    | node rl ra rr => simp [remove_self] at h
  | node ll la lr =>
    cases r with
    | leaf => simp [remove_self] at h
    | node rl ra rr =>
      simp only [remove_self, Except.error.injEq] at h
      exact h.symm

theorem remove_item_decomp : ∀ {t : NTree α} (x : α) {res : Option α} {t2 : NTree α},
    t.remove_item x = Except.ok (res, t2) →
    (res = none ∧ t2 = t) ∨
    (res = some x ∧ ∃ l₁ l₂, t.inorder = l₁ ++ x :: l₂ ∧ t2.inorder = l₁ ++ l₂) := by
  intro t
  induction t with
  | leaf =>
    intro x res t2 h
    simp only [remove_item, Except.ok.injEq, Prod.mk.injEq] at h
    obtain ⟨rfl, rfl⟩ := h
    exact Or.inl ⟨rfl, rfl⟩
  | node l a r ihl ihr =>
    intro x res t2 h
    rw [remove_item_node_eq] at h
    split at h
    · simp at h
    · -- target is less than the item: inspect the left child
      split at h
      · rename_i ll la lr
        by_cases hla : la = x
        · rw [if_pos hla] at h
          subst hla
          cases hrs : remove_self la ll lr with
          | ok v =>
            obtain ⟨i, sub⟩ := v
            rw [hrs] at h
            simp only [Except.ok.injEq, Prod.mk.injEq] at h
            obtain ⟨rfl, rfl⟩ := h
            obtain ⟨rfl, l₁, l₂, hdec, hsub⟩ := remove_self_decomp hrs
            refine Or.inr ⟨rfl, l₁, l₂ ++ a :: r.inorder, ?_, ?_⟩
            · rw [inorder_node, hdec, List.append_assoc, List.cons_append]
            · rw [inorder_node, hsub, List.append_assoc]
          | error p => rw [hrs] at h; simp at h
        · rw [if_neg hla] at h
          cases hrem : remove_item (NTree.node ll la lr) x with
          | ok v =>
            obtain ⟨res2, l2⟩ := v
            rw [hrem] at h
            simp only [Except.ok.injEq, Prod.mk.injEq] at h
            obtain ⟨rfl, rfl⟩ := h
            rcases ihl x hrem with ⟨rfl, rfl⟩ | ⟨rfl, l₁, l₂, hdec, hl2⟩
            · exact Or.inl ⟨rfl, rfl⟩
            · refine Or.inr ⟨rfl, l₁, l₂ ++ a :: r.inorder, ?_, ?_⟩
              · rw [inorder_node, hdec, List.append_assoc, List.cons_append]
              · rw [inorder_node, hl2, List.append_assoc]
          | error p => rw [hrem] at h; simp at h
      · simp only [Except.ok.injEq, Prod.mk.injEq] at h
        obtain ⟨rfl, rfl⟩ := h
        exact Or.inl ⟨rfl, rfl⟩
    · -- target is greater than the item: inspect the right child
      split at h
      · rename_i rl ra rr
        by_cases hra : ra = x
        · rw [if_pos hra] at h
          subst hra
          cases hrs : remove_self ra rl rr with
          | ok v =>
            obtain ⟨i, sub⟩ := v
            rw [hrs] at h
            simp only [Except.ok.injEq, Prod.mk.injEq] at h
            obtain ⟨rfl, rfl⟩ := h
            obtain ⟨rfl, l₁, l₂, hdec, hsub⟩ := remove_self_decomp hrs
            refine Or.inr ⟨rfl, l.inorder ++ a :: l₁, l₂, ?_, ?_⟩
            · rw [inorder_node, hdec, List.append_assoc, List.cons_append]
            · rw [inorder_node, hsub, List.append_assoc, List.cons_append]
          | error p => rw [hrs] at h; simp at h
        · rw [if_neg hra] at h
          cases hrem : remove_item (NTree.node rl ra rr) x with
          | ok v =>
            obtain ⟨res2, r2⟩ := v
            rw [hrem] at h
            simp only [Except.ok.injEq, Prod.mk.injEq] at h
            obtain ⟨rfl, rfl⟩ := h
            rcases ihr x hrem with ⟨rfl, rfl⟩ | ⟨rfl, l₁, l₂, hdec, hr2⟩
            · exact Or.inl ⟨rfl, rfl⟩
            · refine Or.inr ⟨rfl, l.inorder ++ a :: l₁, l₂, ?_, ?_⟩
              · rw [inorder_node, hdec, List.append_assoc, List.cons_append]
              · rw [inorder_node, hr2, List.append_assoc, List.cons_append]
          | error p => rw [hrem] at h; simp at h
      · simp only [Except.ok.injEq, Prod.mk.injEq] at h
        obtain ⟨rfl, rfl⟩ := h
        exact Or.inl ⟨rfl, rfl⟩

theorem remove_item_of_not_mem : ∀ {t : NTree α} {x : α}, x ∉ t.inorder →
    t.remove_item x = Except.ok (none, t) := by
  intro t
  induction t with
  | leaf => intro x _; rfl
  | node l a r ihl ihr =>
    intro x hx
    have hxa : x ≠ a := fun h => hx (by simp [inorder_node, h])
    have hxl : x ∉ l.inorder := fun hm => hx (by simp [inorder_node, hm])
    have hxr : x ∉ r.inorder := fun hm => hx (by simp [inorder_node, hm])
    rw [remove_item_node_eq]
    split
    · rename_i heq
      exact absurd (compare_eq_iff_eq.1 heq) hxa
    · split
      · rename_i ll la lr
        have hlax : ¬(la = x) := fun h => hxl (by simp [inorder_node, h])
        rw [if_neg hlax, ihl hxl]
      · rfl
    · split
      · rename_i rl ra rr
        have hrax : ¬(ra = x) := fun h => hxr (by simp [inorder_node, h])
        rw [if_neg hrax, ihr hxr]
      · rfl

theorem remove_item_unreachable_eq : ∀ {t : NTree α} (x : α),
    t.remove_item x = Except.error Panic.unreachable →
    ∃ l r, t = NTree.node l x r := by
  intro t
  induction t with
  | leaf => intro x h; simp [remove_item] at h
  | node l a r ihl ihr =>
    intro x h
    rw [remove_item_node_eq] at h
    split at h
    · rename_i heq
      exact ⟨l, r, by rw [compare_eq_iff_eq.1 heq]⟩
    · split at h
      · rename_i ll la lr
        by_cases hla : la = x
        · rw [if_pos hla] at h
          cases hrs : remove_self la ll lr with
          | ok v => rw [hrs] at h; simp at h
          | error p =>
            rw [hrs] at h
            simp only [Except.error.injEq] at h
            exact absurd (h ▸ remove_self_error hrs) (by simp)
        · rw [if_neg hla] at h
          cases hrem : remove_item (NTree.node ll la lr) x with
          | ok v => rw [hrem] at h; simp at h
          | error p =>
            rw [hrem] at h
            simp only [Except.error.injEq] at h
            obtain ⟨l2, r2, hn⟩ := ihl x (h ▸ hrem)
            injection hn with h1 h2 h3
            exact absurd h2 hla
      · simp at h
    · split at h
      · rename_i rl ra rr
        by_cases hra : ra = x
        · rw [if_pos hra] at h
          cases hrs : remove_self ra rl rr with
          | ok v => rw [hrs] at h; simp at h
          | error p =>
            rw [hrs] at h
            simp only [Except.error.injEq] at h
            exact absurd (h ▸ remove_self_error hrs) (by simp)
        · rw [if_neg hra] at h
          cases hrem : remove_item (NTree.node rl ra rr) x with
          | ok v => rw [hrem] at h; simp at h
          | error p =>
            rw [hrem] at h
            simp only [Except.error.injEq] at h
            obtain ⟨l2, r2, hn⟩ := ihr x (h ▸ hrem)
            injection hn with h1 h2 h3
            exact absurd h2 hra
      · simp at h

end NTree

namespace BinaryTree

theorem insert_root (t : BinaryTree α) (x : α) :
    ((t.insert x).2).root = (t.root.insert x).2 := rfl

theorem insert_fst (t : BinaryTree α) (x : α) :
    (t.insert x).1 = (t.root.insert x).1 := rfl

theorem tree_remove_leaf_eq (len : Nat) (x : α) :
    BinaryTree.remove_item ⟨.leaf, len⟩ x = .ok (none, ⟨.leaf, len⟩) := rfl

theorem tree_remove_node_eq (l : NTree α) (a : α) (r : NTree α) (len : Nat) (x : α) :
    BinaryTree.remove_item ⟨.node l a r, len⟩ x =
      (if a = x then
        match NTree.remove_self a l r with
        | .ok (i, sub) => .ok (some i, ⟨sub, len⟩)
        | .error p => .error p
      else
        match NTree.remove_item (.node l a r) x with
        | .ok (res, root2) => .ok (res, ⟨root2, len⟩)
        | .error p => .error p : Except Panic (Option α × BinaryTree α)) := rfl

theorem remove_of_not_mem {t : BinaryTree α} {x : α} (hx : x ∉ t.iter) :
    t.remove_item x = Except.ok (none, t) := by
  obtain ⟨root, len⟩ := t
  cases root with
  | leaf => rfl
  | node l a r =>
    have hxa : ¬(a = x) := fun h => hx (by simp [iter, NTree.inorder_node, h])
    rw [tree_remove_node_eq, if_neg hxa, NTree.remove_item_of_not_mem hx]

theorem tree_remove_decomp {t : BinaryTree α} {x : α} {res : Option α} {t2 : BinaryTree α}
    (h : t.remove_item x = Except.ok (res, t2)) :
    t2.len = t.len ∧
      ((res = none ∧ t2 = t) ∨
       (res = some x ∧ ∃ l₁ l₂, t.iter = l₁ ++ x :: l₂ ∧ t2.iter = l₁ ++ l₂)) := by
  obtain ⟨root, len⟩ := t
  cases root with
  | leaf =>
    rw [tree_remove_leaf_eq] at h
    simp only [Except.ok.injEq, Prod.mk.injEq] at h
    obtain ⟨rfl, rfl⟩ := h
    exact ⟨rfl, Or.inl ⟨rfl, rfl⟩⟩
  | node l a r =>
    rw [tree_remove_node_eq] at h
    by_cases hax : a = x
    · rw [if_pos hax] at h
      subst hax
      cases hrs : NTree.remove_self a l r with
      | ok v =>
        obtain ⟨i, sub⟩ := v
        rw [hrs] at h
        simp only [Except.ok.injEq, Prod.mk.injEq] at h
        obtain ⟨rfl, rfl⟩ := h
        obtain ⟨rfl, l₁, l₂, hdec, hsub⟩ := NTree.remove_self_decomp hrs
        exact ⟨rfl, Or.inr ⟨rfl, l₁, l₂, hdec, hsub⟩⟩
      | error p => rw [hrs] at h; simp at h
    · rw [if_neg hax] at h
      cases hrem : NTree.remove_item (.node l a r) x with
      | ok v =>
        obtain ⟨res2, root2⟩ := v
        rw [hrem] at h
        simp only [Except.ok.injEq, Prod.mk.injEq] at h
        obtain ⟨rfl, rfl⟩ := h
        rcases NTree.remove_item_decomp x hrem with ⟨rfl, rfl⟩ | ⟨rfl, l₁, l₂, hdec, h2⟩
        · exact ⟨rfl, Or.inl ⟨rfl, rfl⟩⟩
        · exact ⟨rfl, Or.inr ⟨rfl, l₁, l₂, hdec, h2⟩⟩
      | error p => rw [hrem] at h; simp at h

/-- The states of a `BinaryTree` reachable from the empty tree by the public
mutating API: any finite sequence of `insert`s and non-panicking
`remove_item`s. -/
inductive Reachable : BinaryTree α → Prop
  | new : Reachable BinaryTree.new
  | insert (x : α) {t : BinaryTree α} : Reachable t → Reachable (t.insert x).2
  | remove (x : α) {res : Option α} {t t2 : BinaryTree α} :
      Reachable t → t.remove_item x = Except.ok (res, t2) → Reachable t2

theorem reachable_sorted {t : BinaryTree α} (h : Reachable t) :
    t.iter.Sorted (· < ·) := by
  induction h with
  | new => simp [iter, new, NTree.inorder]
  | insert x ht ih =>
    exact NTree.bst_sorted (NTree.insert_bst (NTree.sorted_bst ih) x)
  | remove x ht hrem ih =>
    rcases (tree_remove_decomp hrem).2 with ⟨-, rfl⟩ | ⟨-, l₁, l₂, hdec, h2⟩
    · exact ih
    · rw [iter] at h2 ⊢
      rw [h2]
      have ih2 : List.Sorted (· < ·) (l₁ ++ x :: l₂) := by
        rw [← hdec]; exact ih
      exact List.Pairwise.sublist
        ((List.sublist_cons_self x l₂).append_left l₁) ih2


/-- C10: for every tree (in particular every tree satisfying the BST
invariant) and every target, `remove_item` never aborts through the
`unreachable!()` branch of `Node::remove_item`: every call site compares the
child's item against the target before recursing. -/
theorem c10_remove_never_unreachable (t : BinaryTree α) (x : α) :
    t.remove_item x ≠ Except.error Panic.unreachable := by
  obtain ⟨root, len⟩ := t
  intro h
  cases root with
  | leaf => rw [tree_remove_leaf_eq] at h; simp at h
  | node l a r =>
    rw [tree_remove_node_eq] at h
    by_cases hax : a = x
    · rw [if_pos hax] at h
      cases hrs : NTree.remove_self a l r with
      | ok v => obtain ⟨i, sub⟩ := v; rw [hrs] at h; simp at h
      | error p =>
        rw [hrs] at h
        simp only [Except.error.injEq] at h
        exact absurd (h ▸ NTree.remove_self_error hrs) (by simp)
    · rw [if_neg hax] at h
      cases hrem : NTree.remove_item (.node l a r) x with
      | ok v => obtain ⟨res2, root2⟩ := v; rw [hrem] at h; simp at h
      | error p =>
        rw [hrem] at h
        simp only [Except.error.injEq] at h
        obtain ⟨l2, r2, hn⟩ := NTree.remove_item_unreachable_eq x (h ▸ hrem)
        injection hn with h1 h2 h3
        exact absurd h2 hax

/-- C2: every tree reachable from the empty tree by a finite sequence of
`insert` and (non-panicking) `remove_item` operations has an in-order
traversal (`for_each` / `iter`) that is strictly ascending and free of
duplicates. -/
theorem c2_reachable_inorder_sorted_nodup (t : BinaryTree α) (h : Reachable t) :
    t.iter.Sorted (· < ·) ∧ t.iter.Nodup := by
  have hs := reachable_sorted h
  exact ⟨hs, hs.nodup⟩

theorem c2_witness :
    ((BinaryTree.new.insert (2 : Int)).2.insert 1).2.iter.Sorted (· < ·) ∧
    ((BinaryTree.new.insert (2 : Int)).2.insert 1).2.iter.Nodup :=
  c2_reachable_inorder_sorted_nodup _
    (Reachable.insert 1 (Reachable.insert 2 Reachable.new))

/-- C5: removing an element that is not in the tree returns `none` and leaves
the tree (in-order sequence, `len()` and even the stored `len` field) exactly
unchanged; consequently, on a duplicate-free tree, a successful removal
followed by a second removal of the same element yields `none` the second
time and leaves the tree as it was after the first removal. -/
theorem c5_remove_absent_noop (t : BinaryTree α) (x : α) (hnd : t.iter.Nodup) :
    (x ∉ t.iter → t.remove_item x = Except.ok (none, t)) ∧
    (∀ res t2, t.remove_item x = Except.ok (some res, t2) →
      t2.remove_item x = Except.ok (none, t2)) := by
  refine ⟨fun hx => remove_of_not_mem hx, fun res t2 h => ?_⟩
  obtain ⟨-, hcase⟩ := tree_remove_decomp h
  rcases hcase with ⟨hcon, -⟩ | ⟨-, l₁, l₂, hdec, h2⟩
  · cases hcon
  · apply remove_of_not_mem
    rw [h2]
    rw [hdec] at hnd
    intro hmem
    rcases List.mem_append.1 hmem with hm | hm
    · exact (List.nodup_append.1 hnd).2.2 hm (List.mem_cons_self x l₂)
    · exact (List.nodup_cons.1 (List.nodup_append.1 hnd).2.1).1 hm

theorem c5_witness :
    (BinaryTree.from_iter ([1] : List Int)).remove_item 2 =
      Except.ok (none, BinaryTree.from_iter ([1] : List Int)) :=
  (c5_remove_absent_noop (BinaryTree.from_iter ([1, 2] : List Int)) 2
      (by decide)).2 2 (BinaryTree.from_iter ([1] : List Int)) (by decide)

/-- C1: contrary to the claim, removing an element whose node has two
children does not splice in the in-order successor — `Node::remove_self`
executes the `todo!()` panic. After inserting `[2, 1, 7, 4, 8, 3, 6, 5]` the
node holding `4` has children `3` and `6`, and `remove_item 4` aborts. -/
theorem c1_remove_two_children_panics :
    (BinaryTree.from_iter ([2, 1, 7, 4, 8, 3, 6, 5] : List Int)).remove_item 4 =
        Except.error Panic.todo ∧
    (BinaryTree.from_iter ([2, 1, 7, 4, 8, 3, 6, 5] : List Int)).iter =
        [1, 2, 3, 4, 5, 6, 7, 8] := by
  exact ⟨by decide, by decide⟩

/-- C3: contrary to the claim (and to the method's own doc comment), a
duplicate insert returns `false` only when the duplicate sits at the root:
`Node::insert` discards the result of its recursive call and the outer arm
returns `true`. After inserting `1` then `2`, inserting `2` again returns
`true` even though `2` is already present; the traversal-counted `len()`
still increases only once across the two inserts of `2`. -/
theorem c3_duplicate_insert_returns_true :
    ((BinaryTree.from_iter ([1] : List Int)).insert 2).1 = true ∧
    ((BinaryTree.from_iter ([1, 2] : List Int)).insert 2).1 = true ∧
    (2 : Int) ∈ (BinaryTree.from_iter ([1, 2] : List Int)).iter ∧
    ((BinaryTree.from_iter ([1, 2] : List Int)).insert 2).2.iter = [1, 2] ∧
    (BinaryTree.from_iter ([1] : List Int)).len_fn = 1 ∧
    (BinaryTree.from_iter ([1, 2] : List Int)).len_fn = 2 ∧
    ((BinaryTree.from_iter ([1, 2] : List Int)).insert 2).2.len_fn = 2 := by
  refine ⟨by decide, by decide, by decide, by decide, by decide, by decide, by decide⟩

/-- C4: contrary to the claim, the stored `len` field is not an invariant:
`BinaryTree::insert` increments it on the `!inserted` branch (i.e. on
rejected root duplicates, not on successful inserts) and
`BinaryTree::remove_item` never decrements it. After inserting `1` into the
empty tree the field is `0` while one node is reachable; inserting `1` again
bumps the field to `1`; removing `1` then leaves the field at `1` with no
node reachable. -/
theorem c4_len_field_diverges_from_node_count :
    ((BinaryTree.new.insert (1 : Int)).2).len = 0 ∧
    ((BinaryTree.new.insert (1 : Int)).2).iter.length = 1 ∧
    (((BinaryTree.new.insert (1 : Int)).2.insert 1).2).len = 1 ∧
    (((BinaryTree.new.insert (1 : Int)).2.insert 1).2).iter.length = 1 ∧
    (((BinaryTree.new.insert (1 : Int)).2.insert 1).2).remove_item 1 =
      Except.ok (some 1, ⟨.leaf, 1⟩) := by
  refine ⟨by decide, by decide, by decide, by decide, by decide⟩

end BinaryTree

namespace NTree

theorem inorder_ne_nil (l : NTree α) (a : α) (r : NTree α) :
    (NTree.node l a r).inorder ≠ [] := by
  simp [inorder_node]

theorem inorder_eq_nil_iff : ∀ {t : NTree α}, t.inorder = [] ↔ t = .leaf := by
  intro t
  cases t with
  | leaf => simp [inorder]
  | node l a r =>
    constructor
    · intro h
      exact absurd h (inorder_ne_nil l a r)
    · intro h
      cases h

theorem min_eq_head : ∀ t : NTree α, t.min = t.inorder.head?
  | .leaf => rfl
  | .node .leaf a r => by simp [min, inorder]
  | .node (.node ll la lr) a r => by
    rw [min, min_eq_head (.node ll la lr)]
    exact (List.head?_append_of_ne_nil _ (inorder_ne_nil ll la lr)).symm

theorem max_eq_getLast : ∀ t : NTree α, t.max = t.inorder.getLast?
  | .leaf => rfl
  | .node l a .leaf => by
    rw [max, show (NTree.node l a .leaf).inorder = l.inorder ++ a :: [] from rfl,
      List.getLast?_append_cons]
    rfl
  | .node l a (.node rl ra rr) => by
    rw [max, max_eq_getLast (.node rl ra rr)]
    rw [show (NTree.node l a (NTree.node rl ra rr)).inorder
        = (l.inorder ++ a :: rl.inorder) ++ ra :: rr.inorder from by
      simp [inorder_node, List.append_assoc]]
    rw [show (NTree.node rl ra rr).inorder = rl.inorder ++ ra :: rr.inorder from rfl]
    rw [List.getLast?_append_cons, List.getLast?_append_cons]

end NTree

theorem sorted_head?_le {L : List α} (hs : L.Sorted (· < ·)) {m : α}
    (hm : L.head? = some m) : ∀ y ∈ L, m ≤ y := by
  cases L with
  | nil => cases hm
  | cons a tl =>
    simp only [List.head?_cons, Option.some.injEq] at hm
    subst hm
    intro y hy
    rcases List.mem_cons.1 hy with rfl | hy
    · exact le_refl y
    · exact le_of_lt ((List.pairwise_cons.1 hs).1 y hy)

theorem mem_of_getLast? : ∀ {L : List α} {m : α}, L.getLast? = some m → m ∈ L := by
  intro L
  induction L with
  | nil => intro m hm; cases hm
  | cons a tl ih =>
    intro m hm
    cases tl with
    | nil =>
      simp only [List.getLast?_singleton, Option.some.injEq] at hm
      simp [hm]
    | cons b tl2 =>
      rw [List.getLast?_cons_cons] at hm
      exact List.mem_cons_of_mem a (ih hm)

theorem sorted_le_getLast? : ∀ {L : List α}, L.Sorted (· < ·) → ∀ {m : α},
    L.getLast? = some m → ∀ y ∈ L, y ≤ m := by
  intro L
  induction L with
  | nil => intro _ m hm; cases hm
  | cons a tl ih =>
    intro hs m hm y hy
    cases tl with
    | nil =>
      simp only [List.getLast?_singleton, Option.some.injEq] at hm
      simp only [List.mem_singleton] at hy
      exact le_of_eq (hy.trans hm)
    | cons b tl2 =>
      rw [List.getLast?_cons_cons] at hm
      rcases List.mem_cons.1 hy with rfl | hy2
      · exact le_of_lt ((List.pairwise_cons.1 hs).1 m (mem_of_getLast? hm))
      · exact ih (List.pairwise_cons.1 hs).2 hm y hy2

namespace BinaryTree

theorem insert_perm_tree {t : BinaryTree α} {x : α} (hx : x ∉ t.iter) :
    ((t.insert x).2).iter.Perm (x :: t.iter) := NTree.insert_perm hx

theorem foldl_insert_reachable : ∀ (l : List α) (t : BinaryTree α), Reachable t →
    Reachable (l.foldl (fun t x => (t.insert x).2) t)
  | [], _, h => h
  | x :: xs, t, h =>
    foldl_insert_reachable xs (t.insert x).2 (Reachable.insert x h)

theorem from_iter_reachable (l : List α) : Reachable (from_iter l) :=
  foldl_insert_reachable l new Reachable.new

theorem foldl_insert_perm : ∀ (l : List α) (t : BinaryTree α),
    (∀ x ∈ l, x ∉ t.iter) → l.Nodup →
    (l.foldl (fun t x => (t.insert x).2) t).iter.Perm (t.iter ++ l) := by
  intro l
  induction l with
  | nil => intro t _ _; simp
  | cons x xs ih =>
    intro t hdisj hnd
    have hx : x ∉ t.iter := hdisj x (List.mem_cons_self x xs)
    have h1 : ((t.insert x).2).iter.Perm (x :: t.iter) := insert_perm_tree hx
    have hdisj2 : ∀ y ∈ xs, y ∉ ((t.insert x).2).iter := by
      intro y hy hmem
      rcases NTree.mem_insert hmem with hm | hm
      · exact hdisj y (List.mem_cons_of_mem x hy) hm
      · exact (List.nodup_cons.1 hnd).1 (hm ▸ hy)
    have h2 := ih (t.insert x).2 hdisj2 (List.nodup_cons.1 hnd).2
    rw [List.foldl_cons]
    refine h2.trans ?_
    refine (h1.append_right xs).trans ?_
    exact List.perm_middle.symm

theorem from_iter_perm {l : List α} (hnd : l.Nodup) :
    (from_iter l).iter.Perm l := by
  have h := foldl_insert_perm l new
    (by intro x _ hm; simp [iter, new, NTree.inorder] at hm) hnd
  simpa [from_iter, iter, new, NTree.inorder] using h

end BinaryTree

theorem zip_all_eq : ∀ (l₁ l₂ : List α), l₁.length = l₂.length →
    ((((l₁.zip l₂).all fun p => decide (p.1 = p.2)) = true) ↔ l₁ = l₂)
  | [], [] => by simp
  | [], _ :: _ => by intro h; simp at h
  | _ :: _, [] => by intro h; simp at h
  | a :: l₁, b :: l₂ => by
    intro h
    have ih := zip_all_eq l₁ l₂ (by simpa using h)
    simp only [List.zip_cons_cons, List.all_cons, Bool.and_eq_true, decide_eq_true_eq,
      List.cons.injEq]
    rw [ih]

namespace BinaryTree

/-- C7: two trees compare equal exactly when their `len()`s agree and their
in-order sequences agree element-wise; in particular the trees built from
`[1, 2, 3]` and `[3, 1, 2]` are equal although their shapes differ. -/
theorem c7_eq_iff_len_and_inorder (a b : BinaryTree α) :
    (BinaryTree.eq a b = true ↔ a.len_fn = b.len_fn ∧ a.iter = b.iter) ∧
    BinaryTree.eq (BinaryTree.from_iter ([1, 2, 3] : List Int))
        (BinaryTree.from_iter ([3, 1, 2] : List Int)) = true ∧
    (BinaryTree.from_iter ([1, 2, 3] : List Int)).root ≠
        (BinaryTree.from_iter ([3, 1, 2] : List Int)).root := by
  refine ⟨?_, by decide, by decide⟩
  by_cases hlen : a.len_fn ≠ b.len_fn
  · constructor
    · intro he
      rw [BinaryTree.eq, if_pos hlen] at he
      cases he
    · rintro ⟨h1, -⟩
      exact absurd h1 hlen
  · push_neg at hlen
    have hlen2 : a.iter.length = b.iter.length := hlen
    constructor
    · intro he
      rw [BinaryTree.eq, if_neg (not_not_intro hlen)] at he
      exact ⟨hlen, (zip_all_eq a.iter b.iter hlen2).1 he⟩
    · rintro ⟨-, h2⟩
      rw [BinaryTree.eq, if_neg (not_not_intro hlen)]
      exact (zip_all_eq a.iter b.iter hlen2).2 h2

/-- C6: building a tree from a duplicate-free sequence by repeated insertion
and collecting its in-order iteration yields the sorted version of the
sequence. -/
theorem c6_from_iter_eq_sorted (l : List α) (hnd : l.Nodup) :
    (BinaryTree.from_iter l).iter = l.insertionSort (· ≤ ·) := by
  have hperm : (from_iter l).iter.Perm (l.insertionSort (· ≤ ·)) :=
    (from_iter_perm hnd).trans (List.perm_insertionSort (· ≤ ·) l).symm
  have hsorted : (from_iter l).iter.Sorted (· < ·) :=
    reachable_sorted (from_iter_reachable l)
  refine List.eq_of_perm_of_sorted hperm ?_ (List.sorted_insertionSort (· ≤ ·) l)
  exact List.Pairwise.imp (fun h => le_of_lt h) hsorted

theorem c6_witness :
    (BinaryTree.from_iter ([3, 1, 2] : List Int)).iter =
      ([3, 1, 2] : List Int).insertionSort (· ≤ ·) :=
  c6_from_iter_eq_sorted [3, 1, 2] (by decide)

end BinaryTree

/-- The degenerate right-spine tree that inserting a strictly ascending
sequence produces. -/
def rchain : List α → NTree α
  | [] => .leaf
  | x :: xs => .node .leaf x (rchain xs)

theorem rchain_inorder : ∀ l : List α, (rchain l).inorder = l
  | [] => rfl
  | x :: xs => by simp [rchain, NTree.inorder, rchain_inorder xs]

theorem rchain_height : ∀ l : List α, (rchain l).height = l.length
  | [] => rfl
  | x :: xs => by
    simp [rchain, NTree.height, rchain_height xs]
    omega

theorem insert_rchain : ∀ (l : List α) (x : α), (∀ y ∈ l, y < x) →
    ((rchain l).insert x).2 = rchain (l ++ [x])
  | [], x, _ => rfl
  | y :: ys, x, hall => by
    have hyx : y < x := hall y (List.mem_cons_self y ys)
    have hys : ∀ y2 ∈ ys, y2 < x := fun y2 hy2 => hall y2 (List.mem_cons_of_mem y hy2)
    simp only [rchain, NTree.insert, compare_gt_iff_gt.2 hyx,
      insert_rchain ys x hys, List.cons_append]
    rfl

theorem from_iter_sorted_rchain : ∀ (l : List α), l.Sorted (· < ·) →
    (BinaryTree.from_iter l).root = rchain l := by
  intro l
  induction l using List.reverseRecOn with
  | nil => intro _; rfl
  | append_singleton xs x ih =>
    intro hs
    have hall : ∀ y ∈ xs, y < x := by
      intro y hy
      exact (List.pairwise_append.1 hs).2.2 y hy x (List.mem_singleton_self x)
    have hxs : xs.Sorted (· < ·) := (List.pairwise_append.1 hs).1
    have hfold : BinaryTree.from_iter (xs ++ [x]) =
        ((BinaryTree.from_iter xs).insert x).2 := by
      simp [BinaryTree.from_iter, List.foldl_append]
    rw [hfold, BinaryTree.insert_root, ih hxs]
    exact insert_rchain xs x hall

/-- C8: the height of the empty tree is `0`, of a one-element tree `1`, of a
node `1` plus the larger child height; inserting `n` elements in strictly
increasing order produces a degenerate chain of height `n`. -/
theorem c8_height_spec (x : α) (l r : NTree α) (xs : List α)
    (hxs : xs.Sorted (· < ·)) :
    (BinaryTree.new : BinaryTree α).height = 0 ∧
    (BinaryTree.from_iter [x]).height = 1 ∧
    (NTree.node l x r).height = 1 + Max.max l.height r.height ∧
    (BinaryTree.from_iter xs).height = xs.length := by
  refine ⟨rfl, rfl, rfl, ?_⟩
  rw [BinaryTree.height, from_iter_sorted_rchain xs hxs, rchain_height]

theorem c8_witness :
    (BinaryTree.new : BinaryTree Int).height = 0 ∧
    (BinaryTree.from_iter [(5 : Int)]).height = 1 ∧
    (NTree.node .leaf (5 : Int) .leaf).height =
      1 + Max.max (NTree.leaf : NTree Int).height (NTree.leaf : NTree Int).height ∧
    (BinaryTree.from_iter ([1, 2, 3] : List Int)).height =
      ([1, 2, 3] : List Int).length :=
  c8_height_spec 5 .leaf .leaf [1, 2, 3] (by decide)

/-- C9: `min` (resp. `max`) is `none` exactly on the empty tree, and on a
tree whose in-order sequence is sorted (the BST invariant) it returns the
least (resp. greatest) stored element, found as the head (resp. last) of the
in-order sequence by walking left (resp. right) children. -/
theorem c9_min_max_spec (t : BinaryTree α) (hs : t.iter.Sorted (· < ·)) :
    (t.min = none ↔ t.root = .leaf) ∧
    (t.max = none ↔ t.root = .leaf) ∧
    (∀ m, t.min = some m → m ∈ t.iter ∧ ∀ y ∈ t.iter, m ≤ y) ∧
    (∀ m, t.max = some m → m ∈ t.iter ∧ ∀ y ∈ t.iter, y ≤ m) := by
  have hmin : t.min = t.iter.head? := NTree.min_eq_head t.root
  have hmax : t.max = t.iter.getLast? := NTree.max_eq_getLast t.root
  refine ⟨?_, ?_, ?_, ?_⟩
  · rw [hmin, List.head?_eq_none_iff]
    exact NTree.inorder_eq_nil_iff
  · rw [hmax, List.getLast?_eq_none_iff]
    exact NTree.inorder_eq_nil_iff
  · intro m hm
    rw [hmin] at hm
    exact ⟨List.mem_of_mem_head? (by simp [hm]), sorted_head?_le hs hm⟩
  · intro m hm
    rw [hmax] at hm
    exact ⟨mem_of_getLast? hm, sorted_le_getLast? hs hm⟩

theorem c9_witness :
    ((BinaryTree.from_iter ([2, 1, 3] : List Int)).min = none ↔
      (BinaryTree.from_iter ([2, 1, 3] : List Int)).root = .leaf) ∧
    ((BinaryTree.from_iter ([2, 1, 3] : List Int)).max = none ↔
      (BinaryTree.from_iter ([2, 1, 3] : List Int)).root = .leaf) ∧
    (∀ m, (BinaryTree.from_iter ([2, 1, 3] : List Int)).min = some m →
      m ∈ (BinaryTree.from_iter ([2, 1, 3] : List Int)).iter ∧
      ∀ y ∈ (BinaryTree.from_iter ([2, 1, 3] : List Int)).iter, m ≤ y) ∧
    (∀ m, (BinaryTree.from_iter ([2, 1, 3] : List Int)).max = some m →
      m ∈ (BinaryTree.from_iter ([2, 1, 3] : List Int)).iter ∧
      ∀ y ∈ (BinaryTree.from_iter ([2, 1, 3] : List Int)).iter, y ≤ m) :=
  c9_min_max_spec (BinaryTree.from_iter ([2, 1, 3] : List Int)) (by decide)

end BinTreeRs
